import Mathlib

/-!
# Verification of the Kruskal MST implementation

This file gives a shallow embedding of `src/algorithms/thirteenAlgorithms/kruskal.py`
and proves properties of it.  The Python program stores a graph as a vertex count
`v` together with a list of edges `[u, v, w]`; `kruskalMST` sorts the edges by
weight (Python's `sorted` is stable), initialises `parent`/`rank` arrays, and runs
the classic union-find greedy loop.  Machine-level behaviours are modelled
explicitly: list indexing that would raise `IndexError` in Python is modelled by
`Option` (`none` = crash), and the recursive `find` is given fuel
`parent.length + 1`, which is enough for every terminating run of the Python
function (a terminating parent chain never revisits a node, so it has at most
`parent.length` nodes).
-/

/-- An edge `[u, v, w]` as appended by `add_edge`: two endpoints and a weight.
Weights are Python ints, modelled as `Int`. -/
abbrev Edge := Nat × Nat × Int

/-- The weight component of an edge (`item[2]` in the Python sort key). -/
def wt (e : Edge) : Int := e.2.2

/-- The `Graph` class: a vertex count `self.v` and the edge list `self.graph`. -/
structure Graph where
  v : Nat
  graph : List Edge

/-- `parent[j]` with the convention used throughout: a plain read at index `j`
(all reads we reason about are in range, where `getD` agrees with Python's
`parent[j]`). -/
def pget (parent : List Nat) (j : Nat) : Nat := parent.getD j 0

/-- Fuel-indexed model of `Graph.find`: follow `parent` until reaching a
fixed point.  `none` models a Python `IndexError` (out-of-range read) or a
non-terminating parent chain; the fuel used by `find` below is large enough
that `none` is returned exactly when the Python call does not return. -/
def findAux (parent : List Nat) : Nat → Nat → Option Nat
  | 0, _ => none
  | fuel + 1, i =>
    match parent.get? i with
    | none => none
    | some p => if p = i then some i else findAux parent fuel p

/-- Model of `Graph.find(self, parent, i)`.  The Python function only reads
`parent` (it performs no assignment), so the model returns just the root. -/
def find (parent : List Nat) (i : Nat) : Option Nat :=
  findAux parent (parent.length + 1) i

/-- The `parent` array as it stands after a call to `Graph.find`: the Python
body is `if parent[i] == i: return i` / `return self.find(parent, parent[i])`,
which contains no write to `parent`, so the array after the call is the array
before the call. -/
def findParentAfter (parent : List Nat) (_i : Nat) : List Nat := parent

/-- Model of `Graph.union(self, parent, rank, x, y)`: re-find the roots of `x`
and `y`, then link by rank; on equal ranks `yroot` is linked under `xroot` and
`rank[xroot]` is incremented.  Returns the updated `(parent, rank)` pair;
`none` models an `IndexError` in one of the reads. -/
def union (parent rank : List Nat) (x y : Nat) : Option (List Nat × List Nat) :=
  match find parent x, find parent y with
  | some xroot, some yroot =>
    match rank.get? xroot, rank.get? yroot with
    | some rx, some ry =>
      if rx < ry then some (parent.set xroot yroot, rank)
      else if ry < rx then some (parent.set yroot xroot, rank)
      else some (parent.set yroot xroot, rank.set xroot (rx + 1))
    | _, _ => none
  | _, _ => none

/-- Stable sort by weight, modelling `sorted(self.graph, key=lambda item: item[2])`
(Python's `sorted` is stable, and any two stable sorts on the same key agree). -/
def sortEdges (l : List Edge) : List Edge :=
  List.insertionSort (fun a b => wt a ≤ wt b) l

/-- The `while e < self.v - 1` loop of `kruskalMST`.  The Python loop walks the
sorted edge list by an index `i` that increases by exactly one per iteration;
here the remaining suffix of the sorted list is passed instead, so reading
`self.graph[i]` becomes inspecting the head of `rest` (an empty `rest` is the
`IndexError`, modelled as `none`).  `e` counts accepted edges and `mst`
accumulates them in acceptance order. -/
def kruskalLoop (v : Nat) : List Edge → List Nat → List Nat → Nat → List Edge →
    Option (List Edge)
  | rest, parent, rank, e, mst =>
    if e < v - 1 then
      match rest with
      | [] => none
      | (u, uv, w) :: rest' =>
        match find parent u, find parent uv with
        | some x, some y =>
          if x = y then kruskalLoop v rest' parent rank e mst
          else
            match union parent rank x y with
            | some (p', r') => kruskalLoop v rest' p' r' (e + 1) (mst ++ [(u, uv, w)])
            | none => none
        | _, _ => none
    else some mst

/-- Model of `Graph.kruskalMST`: sort the edges, create the `parent`/`rank`
arrays (`parent[j] = j`, `rank[j] = 0`), run the loop, and pair the resulting
edge list with `minimum_cost`, the sum of its weights.  `none` models a crash
(`IndexError`) of the Python method. -/
def kruskalMST (g : Graph) : Option (List Edge × Int) :=
  match kruskalLoop g.v (sortEdges g.graph) (List.range g.v) (List.replicate g.v 0) 0 [] with
  | some mst => some (mst, (mst.map wt).sum)
  | none => none

/-- The `Graph` object as it stands after `kruskalMST` returns: the method
executes `self.graph = sorted(self.graph, key=lambda item: item[2])`, so the
caller's `Graph` ends up with the weight-sorted edge list; `self.v` is not
touched. -/
def kruskalGraphAfter (g : Graph) : Graph :=
  ⟨g.v, sortEdges g.graph⟩

/-- Number of parent-following steps from `j` to the first fixed point of the
parent map, with fuel; used to express "points more directly toward the root". -/
def stepsToRoot (parent : List Nat) : Nat → Nat → Option Nat
  | 0, _ => none
  | fuel + 1, j =>
    if pget parent j = j then some 0
    else (stepsToRoot parent fuel (pget parent j)).map (· + 1)

/-! ## The forest invariant of the `parent` array -/

/-- `n`-fold application of the parent map starting at `j`. -/
def pIter (parent : List Nat) : Nat → Nat → Nat
  | 0, j => j
  | n + 1, j => pIter parent n (pget parent j)

/-- `r` is a root: its parent is itself. -/
abbrev isRoot (parent : List Nat) (r : Nat) : Prop := pget parent r = r

/-- The forest invariant of a `parent` array for `v` vertices: it has length
`v`, every entry is a vertex, and iterating the parent map from any vertex
reaches a fixed point (in at most `v` steps, which in a forest is the same as
"in finitely many steps"). -/
def ForestInv (v : Nat) (parent : List Nat) : Prop :=
  parent.length = v ∧ (∀ j, j < v → pget parent j < v) ∧
    (∀ j, j < v → isRoot parent (pIter parent v j))

/-- The root of `j`'s parent chain, as a total function (meaningful under
`ForestInv`, where `find` returns exactly this value). -/
def rootD (parent : List Nat) (j : Nat) : Nat := pIter parent parent.length j

theorem pIter_add (parent : List Nat) (m n j : Nat) :
    pIter parent (m + n) j = pIter parent n (pIter parent m j) := by
  induction m generalizing j with
  | zero => rw [Nat.zero_add]; rfl
  | succ m ih => rw [Nat.succ_add]; exact ih (pget parent j)

theorem pIter_root {parent : List Nat} {r : Nat} (h : isRoot parent r) (n : Nat) :
    pIter parent n r = r := by
  induction n with
  | zero => rfl
  | succ n ih => show pIter parent n (pget parent r) = r; rw [h]; exact ih

theorem pIter_root_unique {parent : List Nat} {j m n : Nat}
    (hm : isRoot parent (pIter parent m j)) (hn : isRoot parent (pIter parent n j)) :
    pIter parent m j = pIter parent n j := by
  rcases Nat.le_total m n with h | h
  · obtain ⟨k, rfl⟩ := Nat.le.dest h
    rw [pIter_add, pIter_root hm]
  · obtain ⟨k, rfl⟩ := Nat.le.dest h
    rw [pIter_add, pIter_root hn]

theorem pIter_lt {v : Nat} {parent : List Nat} (hb : ∀ j, j < v → pget parent j < v) :
    ∀ n j, j < v → pIter parent n j < v := by
  intro n
  induction n with
  | zero => exact fun j hj => hj
  | succ n ih => exact fun j hj => ih (pget parent j) (hb j hj)

/-- A parent chain that reaches a fixed point at all reaches it within `v - 1`
steps: the nodes visited before the root are pairwise distinct (otherwise the
chain would cycle and never fix), and they all lie in `[0, v)`. -/
theorem pIter_root_short {v : Nat} {parent : List Nat} {j n : Nat}
    (hb : ∀ i, i < v → pget parent i < v) (hj : j < v)
    (hn : isRoot parent (pIter parent n j)) :
    isRoot parent (pIter parent (v - 1) j) := by
  have hex : ∃ k, isRoot parent (pIter parent k j) := ⟨n, hn⟩
  set k := Nat.find hex with hk
  have hkroot : isRoot parent (pIter parent k j) := Nat.find_spec hex
  rcases Nat.lt_or_ge k v with hkv | hkv
  · -- the minimal fixing index is at most `v - 1`: absorb the remaining steps
    have hle : k ≤ v - 1 := Nat.le_sub_one_of_lt hkv
    obtain ⟨m, hm⟩ := Nat.le.dest hle
    have heq := pIter_add parent k m j
    rw [hm] at heq
    rw [heq, pIter_root hkroot]
    exact hkroot
  · -- impossible: among `pIter 0 j, …, pIter v j` two agree, so the chain is
    -- periodic before `k`, contradicting minimality of `k`
    exfalso
    have hmaps : ∀ t ∈ Finset.range (v + 1), pIter parent t j ∈ Finset.range v := by
      intro t _
      exact Finset.mem_range.mpr (pIter_lt hb t j hj)
    have hcard : (Finset.range v).card < (Finset.range (v + 1)).card := by
      simp
    obtain ⟨t, ht, t', ht', htne, hteq⟩ :=
      Finset.exists_ne_map_eq_of_card_lt_of_maps_to hcard hmaps
    rcases Nat.lt_or_ge t t' with hlt | hge
    · have ht'le : t' ≤ k := le_trans (Nat.lt_succ_iff.mp (Finset.mem_range.mp ht')) hkv
      obtain ⟨m, hm⟩ := Nat.le.dest ht'le
      have hroot' : isRoot parent (pIter parent (t + m) j) := by
        rw [pIter_add, hteq, ← pIter_add, hm]
        exact hkroot
      have : ¬ t + m < k := fun hc => Nat.find_min hex hc hroot'
      omega
    · have hlt : t' < t := lt_of_le_of_ne hge (Ne.symm htne)
      have htle : t ≤ k := le_trans (Nat.lt_succ_iff.mp (Finset.mem_range.mp ht)) hkv
      obtain ⟨m, hm⟩ := Nat.le.dest htle
      have hroot' : isRoot parent (pIter parent (t' + m) j) := by
        rw [pIter_add, ← hteq, ← pIter_add, hm]
        exact hkroot
      have : ¬ t' + m < k := fun hc => Nat.find_min hex hc hroot'
      omega

theorem pget_lt_of_lt {parent : List Nat} {j : Nat} (hj : j < parent.length) :
    parent.get? j = some (pget parent j) := by
  rw [List.get?_eq_getElem?, List.getElem?_eq_getElem hj, pget,
    List.getD_eq_getElem?_getD, List.getElem?_eq_getElem hj]
  rfl

theorem findAux_of_pIter_root {v : Nat} {parent : List Nat}
    (hlen : parent.length = v) (hb : ∀ i, i < v → pget parent i < v) :
    ∀ n fuel j, j < v → isRoot parent (pIter parent n j) → n < fuel →
      findAux parent fuel j = some (pIter parent n j) := by
  intro n
  induction n with
  | zero =>
    intro fuel j hj hroot hfuel
    obtain ⟨f, rfl⟩ : ∃ f, fuel = f + 1 := ⟨fuel - 1, by omega⟩
    have hroot' : pget parent j = j := hroot
    show findAux parent (f + 1) j = some j
    rw [findAux, pget_lt_of_lt (hlen ▸ hj)]
    simp [hroot']
  | succ n ih =>
    intro fuel j hj hroot hfuel
    obtain ⟨f, rfl⟩ : ∃ f, fuel = f + 1 := ⟨fuel - 1, by omega⟩
    by_cases hjr : isRoot parent j
    · have hjr' : pget parent j = j := hjr
      have habs : pIter parent (n + 1) j = j := pIter_root hjr (n + 1)
      rw [habs]
      rw [findAux, pget_lt_of_lt (hlen ▸ hj)]
      simp [hjr']
    · have hjr' : ¬ pget parent j = j := hjr
      have hstep : pIter parent (n + 1) j = pIter parent n (pget parent j) := rfl
      rw [findAux, pget_lt_of_lt (hlen ▸ hj)]
      simp only [hjr', if_false, if_neg hjr']
      rw [hstep]
      exact ih f (pget parent j) (hb j hj) hroot (Nat.lt_of_succ_lt_succ hfuel)

theorem find_eq_rootD {v : Nat} {parent : List Nat} (h : ForestInv v parent)
    {j : Nat} (hj : j < v) : find parent j = some (rootD parent j) := by
  obtain ⟨hlen, hb, hchain⟩ := h
  rw [find, rootD, hlen]
  exact findAux_of_pIter_root hlen hb v (v + 1) j hj (hchain j hj) (Nat.lt_succ_self v)

theorem rootD_isRoot {v : Nat} {parent : List Nat} (h : ForestInv v parent)
    {j : Nat} (hj : j < v) : isRoot parent (rootD parent j) := by
  obtain ⟨hlen, _, hchain⟩ := h
  rw [rootD, hlen]
  exact hchain j hj

theorem rootD_lt {v : Nat} {parent : List Nat} (h : ForestInv v parent)
    {j : Nat} (hj : j < v) : rootD parent j < v := by
  obtain ⟨hlen, hb, _⟩ := h
  rw [rootD, hlen]
  exact pIter_lt hb v j hj

theorem rootD_of_isRoot {parent : List Nat} {j : Nat} (h : isRoot parent j) :
    rootD parent j = j := pIter_root h _

theorem find_of_isRoot {parent : List Nat} {j : Nat} (hj : j < parent.length)
    (h : isRoot parent j) : find parent j = some j := by
  have h' : pget parent j = j := h
  rw [find, findAux, pget_lt_of_lt hj]
  simp [h']

theorem pget_set {parent : List Nat} {r2 : Nat} (h : r2 < parent.length)
    (r1 x : Nat) :
    pget (parent.set r2 r1) x = if r2 = x then r1 else pget parent x := by
  rw [pget, List.getD_eq_getElem?_getD, List.getElem?_set, pget,
    List.getD_eq_getElem?_getD]
  by_cases hx : r2 = x
  · subst hx; simp [h]
  · simp [hx]

/-- Linking one root under another preserves the forest invariant (for any
ranks): new chains follow the old chain, possibly continuing one extra step
from the re-pointed root `r2` to the root `r1`. -/
theorem ForestInv.link {v : Nat} {parent : List Nat} (h : ForestInv v parent)
    {r1 r2 : Nat} (h1 : r1 < v) (h2 : r2 < v) (hr1 : isRoot parent r1)
    (hr2 : isRoot parent r2) (hne : r1 ≠ r2) :
    ForestInv v (parent.set r2 r1) := by
  obtain ⟨hlen, hb, hchain⟩ := h
  have h2l : r2 < parent.length := hlen ▸ h2
  have hpget : ∀ x, pget (parent.set r2 r1) x = if r2 = x then r1 else pget parent x :=
    fun x => pget_set h2l r1 x
  have hlen' : (parent.set r2 r1).length = v := by rw [List.length_set]; exact hlen
  have hb' : ∀ j, j < v → pget (parent.set r2 r1) j < v := by
    intro j hj
    rw [hpget]
    by_cases hj2 : r2 = j
    · simp [hj2, h1]
    · simp [hj2]; exact hb j hj
  have hr1' : isRoot (parent.set r2 r1) r1 := by
    show pget (parent.set r2 r1) r1 = r1
    rw [hpget, if_neg (fun h => hne h.symm)]
    exact hr1
  have htrans : ∀ n, ∀ j, j < v → isRoot parent (pIter parent n j) →
      isRoot (parent.set r2 r1) (pIter (parent.set r2 r1) (n + 1) j) := by
    intro n
    induction n with
    | zero =>
      intro j hj hroot
      by_cases hj2 : r2 = j
      · subst hj2
        show isRoot (parent.set r2 r1) (pIter (parent.set r2 r1) 0 (pget (parent.set r2 r1) r2))
        rw [hpget, if_pos rfl]
        exact hr1'
      · have hroot' : pget parent j = j := hroot
        have hnew : isRoot (parent.set r2 r1) j := by
          show pget (parent.set r2 r1) j = j
          rw [hpget, if_neg hj2]; exact hroot'
        show isRoot (parent.set r2 r1) (pIter (parent.set r2 r1) 0 (pget (parent.set r2 r1) j))
        rw [hpget, if_neg hj2, hroot']
        exact hnew
    | succ n ih =>
      intro j hj hroot
      by_cases hjr : isRoot parent j
      · by_cases hj2 : r2 = j
        · subst hj2
          show isRoot (parent.set r2 r1) (pIter (parent.set r2 r1) (n + 1) (pget (parent.set r2 r1) r2))
          rw [hpget, if_pos rfl, pIter_root hr1']
          exact hr1'
        · have hjr' : pget parent j = j := hjr
          have hrootnew : isRoot (parent.set r2 r1) j := by
            show pget (parent.set r2 r1) j = j
            rw [hpget, if_neg hj2]; exact hjr'
          show isRoot (parent.set r2 r1) (pIter (parent.set r2 r1) (n + 1) (pget (parent.set r2 r1) j))
          rw [hpget, if_neg hj2, hjr', pIter_root hrootnew]
          exact hrootnew
      · have hj2 : r2 ≠ j := fun h => hjr (h ▸ hr2)
        show isRoot (parent.set r2 r1) (pIter (parent.set r2 r1) (n + 1) (pget (parent.set r2 r1) j))
        rw [hpget, if_neg hj2]
        exact ih (pget parent j) (hb j hj) hroot
  refine ⟨hlen', hb', ?_⟩
  intro j hj
  have hshort : isRoot parent (pIter parent (v - 1) j) :=
    pIter_root_short hb hj (hchain j hj)
  have := htrans (v - 1) j hj hshort
  have hv1 : v - 1 + 1 = v := by omega
  rwa [hv1] at this

/-- How roots move when `r2` is linked under `r1`: vertices rooted at `r2`
are re-rooted at `r1`; all other roots are unchanged. -/
theorem rootD_link {v : Nat} {parent : List Nat} (h : ForestInv v parent)
    {r1 r2 : Nat} (h1 : r1 < v) (h2 : r2 < v) (hr1 : isRoot parent r1)
    (hr2 : isRoot parent r2) (hne : r1 ≠ r2) {j : Nat} (hj : j < v) :
    rootD (parent.set r2 r1) j =
      if rootD parent j = r2 then r1 else rootD parent j := by
  obtain ⟨hlen, hb, hchain⟩ := h
  have hlink := ForestInv.link ⟨hlen, hb, hchain⟩ h1 h2 hr1 hr2 hne
  have h2l : r2 < parent.length := hlen ▸ h2
  have hpget : ∀ x, pget (parent.set r2 r1) x = if r2 = x then r1 else pget parent x :=
    fun x => pget_set h2l r1 x
  have hr1' : isRoot (parent.set r2 r1) r1 := by
    show pget (parent.set r2 r1) r1 = r1
    rw [hpget, if_neg (fun h => hne h.symm)]
    exact hr1
  have hex : ∀ n, ∀ j, j < v → isRoot parent (pIter parent n j) →
      ∃ m, isRoot (parent.set r2 r1) (pIter (parent.set r2 r1) m j) ∧
        pIter (parent.set r2 r1) m j =
          (if pIter parent n j = r2 then r1 else pIter parent n j) := by
    intro n
    induction n with
    | zero =>
      intro j hj hroot
      have hroot' : pget parent j = j := hroot
      by_cases hj2 : j = r2
      · refine ⟨1, ?_, ?_⟩
        · show isRoot (parent.set r2 r1) (pIter (parent.set r2 r1) 0 (pget (parent.set r2 r1) j))
          rw [hpget, if_pos hj2.symm]
          exact hr1'
        · show pIter (parent.set r2 r1) 0 (pget (parent.set r2 r1) j) = if j = r2 then r1 else j
          rw [hpget, if_pos hj2.symm, if_pos hj2]
          rfl
      · refine ⟨0, ?_, ?_⟩
        · show pget (parent.set r2 r1) j = j
          rw [hpget, if_neg (fun h => hj2 h.symm)]
          exact hroot'
        · show j = if j = r2 then r1 else j
          rw [if_neg hj2]
    | succ n ih =>
      intro j hj hroot
      by_cases hjr : isRoot parent j
      · have hjr' : pget parent j = j := hjr
        have habs : pIter parent (n + 1) j = j := pIter_root hjr (n + 1)
        rw [habs]
        by_cases hj2 : j = r2
        · refine ⟨1, ?_, ?_⟩
          · show isRoot (parent.set r2 r1) (pIter (parent.set r2 r1) 0 (pget (parent.set r2 r1) j))
            rw [hpget, if_pos hj2.symm]
            exact hr1'
          · show pIter (parent.set r2 r1) 0 (pget (parent.set r2 r1) j) = if j = r2 then r1 else j
            rw [hpget, if_pos hj2.symm, if_pos hj2]
            rfl
        · refine ⟨0, ?_, ?_⟩
          · show pget (parent.set r2 r1) j = j
            rw [hpget, if_neg (fun h => hj2 h.symm)]
            exact hjr'
          · show j = if j = r2 then r1 else j
            rw [if_neg hj2]
      · have hj2 : r2 ≠ j := fun h => hjr (h ▸ hr2)
        obtain ⟨m, hm1, hm2⟩ := ih (pget parent j) (hb j hj) hroot
        refine ⟨m + 1, ?_, ?_⟩
        · show isRoot (parent.set r2 r1) (pIter (parent.set r2 r1) m (pget (parent.set r2 r1) j))
          rw [hpget, if_neg hj2]
          exact hm1
        · show pIter (parent.set r2 r1) m (pget (parent.set r2 r1) j) = _
          rw [hpget, if_neg hj2]
          exact hm2
  obtain ⟨m, hm1, hm2⟩ := hex v j hj (hchain j hj)
  have hlen' : (parent.set r2 r1).length = v := by rw [List.length_set]; exact hlen
  have hvchain : isRoot (parent.set r2 r1) (pIter (parent.set r2 r1) v j) :=
    hlen' ▸ hlink.2.2 j hj
  have huniq : pIter (parent.set r2 r1) v j = pIter (parent.set r2 r1) m j :=
    pIter_root_unique hvchain hm1
  rw [rootD, rootD, hlen, hlen', huniq, hm2]

/-! ## Undirected reachability through an edge list -/

/-- One undirected step along some edge of `E`. -/
def estep (E : List Edge) (a b : Nat) : Prop :=
  ∃ e ∈ E, (e.1 = a ∧ e.2.1 = b) ∨ (e.1 = b ∧ e.2.1 = a)

/-- `a` and `b` are connected by the edges of `E`. -/
def Reach (E : List Edge) : Nat → Nat → Prop :=
  Relation.ReflTransGen (estep E)

theorem estep_symm {E : List Edge} : Symmetric (estep E) := by
  rintro a b ⟨e, he, h | h⟩
  · exact ⟨e, he, Or.inr h⟩
  · exact ⟨e, he, Or.inl h⟩

theorem Reach.refl {E : List Edge} {a : Nat} : Reach E a a :=
  Relation.ReflTransGen.refl

theorem Reach.symm {E : List Edge} {a b : Nat} (h : Reach E a b) : Reach E b a :=
  Relation.ReflTransGen.symmetric estep_symm h

theorem Reach.trans {E : List Edge} {a b c : Nat} (h1 : Reach E a b)
    (h2 : Reach E b c) : Reach E a c :=
  Relation.ReflTransGen.trans h1 h2

theorem Reach.mono {E E' : List Edge} (hsub : ∀ e ∈ E, e ∈ E') {a b : Nat}
    (h : Reach E a b) : Reach E' a b := by
  refine Relation.ReflTransGen.mono ?_ h
  rintro x y ⟨e, he, hxy⟩
  exact ⟨e, hsub e he, hxy⟩

theorem Reach_nil {a b : Nat} (h : Reach [] a b) : a = b := by
  induction h with
  | refl => rfl
  | tail _ hstep ih =>
    obtain ⟨e, he, _⟩ := hstep
    exact absurd he (List.not_mem_nil e)

theorem Reach.of_mem {E : List Edge} {e : Edge} (he : e ∈ E) :
    Reach E e.1 e.2.1 :=
  Relation.ReflTransGen.single ⟨e, he, Or.inl ⟨rfl, rfl⟩⟩

/-- If every edge of `E` has its endpoints connected in `F`, then `F`
connects everything `E` connects. -/
theorem Reach.cover {E F : List Edge} (hcov : ∀ e ∈ E, Reach F e.1 e.2.1)
    {a b : Nat} (h : Reach E a b) : Reach F a b := by
  induction h with
  | refl => exact Reach.refl
  | tail _ hstep ih =>
    obtain ⟨e, he, ⟨h1, h2⟩ | ⟨h1, h2⟩⟩ := hstep
    · exact ih.trans (h1 ▸ h2 ▸ hcov e he)
    · exact ih.trans (h1 ▸ h2 ▸ (hcov e he).symm)

/-- Reachability after appending a single edge `ed = (u, uv, w)`: a path
either avoids the new edge, or crosses it in one of the two directions. -/
theorem reach_append_single {E : List Edge} {ed : Edge} {a b : Nat} :
    Reach (E ++ [ed]) a b ↔
      Reach E a b ∨ (Reach E a ed.1 ∧ Reach E ed.2.1 b) ∨
        (Reach E a ed.2.1 ∧ Reach E ed.1 b) := by
  constructor
  · intro h
    induction h with
    | refl => exact Or.inl Reach.refl
    | tail _ hstep ih =>
      obtain ⟨e, he, hdir⟩ := hstep
      rcases List.mem_append.mp he with heE | heed
      · have hcb : Reach E _ _ := Relation.ReflTransGen.single ⟨e, heE, hdir⟩
        rcases ih with h' | ⟨h1', h2'⟩ | ⟨h1', h2'⟩
        · exact Or.inl (h'.trans hcb)
        · exact Or.inr (Or.inl ⟨h1', h2'.trans hcb⟩)
        · exact Or.inr (Or.inr ⟨h1', h2'.trans hcb⟩)
      · have hee : e = ed := List.mem_singleton.mp heed
        rw [hee] at hdir
        rcases hdir with ⟨h1, h2⟩ | ⟨h1, h2⟩
        · rw [← h2]
          rw [← h1] at ih
          rcases ih with h' | ⟨h1', h2'⟩ | ⟨h1', h2'⟩
          · exact Or.inr (Or.inl ⟨h', Reach.refl⟩)
          · exact Or.inr (Or.inl ⟨h1', Reach.refl⟩)
          · exact Or.inl h1'
        · rw [← h1]
          rw [← h2] at ih
          rcases ih with h' | ⟨h1', h2'⟩ | ⟨h1', h2'⟩
          · exact Or.inr (Or.inr ⟨h', Reach.refl⟩)
          · exact Or.inl h1'
          · exact Or.inr (Or.inr ⟨h1', Reach.refl⟩)
  · have hmem : ∀ e ∈ E, e ∈ E ++ [ed] := fun e he => List.mem_append.mpr (Or.inl he)
    have hstep : Reach (E ++ [ed]) ed.1 ed.2.1 :=
      Reach.of_mem (List.mem_append.mpr (Or.inr (List.mem_singleton.mpr rfl)))
    rintro (h | ⟨h1, h2⟩ | ⟨h1, h2⟩)
    · exact h.mono hmem
    · exact ((h1.mono hmem).trans hstep).trans (h2.mono hmem)
    · exact ((h1.mono hmem).trans hstep.symm).trans (h2.mono hmem)

/-! ## Forests (edge lists without cycles) -/

/-- An edge list is a forest when no edge closes a cycle: each edge's
endpoints are not already connected by the edges listed before it. -/
def IsForest (E : List Edge) : Prop :=
  ∀ p e s, E = p ++ e :: s → ¬ Reach p e.1 e.2.1

theorem IsForest.nil : IsForest [] := by
  intro p e s h
  exact absurd h (by simp)

theorem IsForest.append_single {E : List Edge} {ed : Edge} (h : IsForest E)
    (hnr : ¬ Reach E ed.1 ed.2.1) : IsForest (E ++ [ed]) := by
  intro p e s hsplit
  rcases List.append_eq_append_iff.mp hsplit.symm with ⟨a', ha1, ha2⟩ | ⟨c', hc1, hc2⟩
  · -- `E = p ++ a'` and `e :: s = a' ++ [ed]`
    cases a' with
    | nil =>
      rw [List.nil_append] at ha2
      injection ha2 with he _
      rw [List.append_nil] at ha1
      rw [← ha1, he]
      exact hnr
    | cons x xs =>
      rw [List.cons_append] at ha2
      injection ha2 with he _
      rw [he]
      exact h p x xs ha1
  · -- `p = E ++ c'` and `[ed] = c' ++ e :: s`: forces `c' = []`, `e = ed`
    cases c' with
    | nil =>
      rw [List.nil_append] at hc2
      injection hc2 with he hs
      rw [List.append_nil] at hc1
      rw [hc1, ← he]
      exact hnr
    | cons x xs =>
      rw [List.cons_append] at hc2
      injection hc2 with _ htl
      have hl := congrArg List.length htl
      simp at hl
      omega
theorem IsForest.sublist {B E : List Edge} (hs : B.Sublist E) (h : IsForest E) :
    IsForest B := by
  intro p e s hsplit
  rw [hsplit] at hs
  rw [List.append_sublist_iff] at hs
  obtain ⟨s₁, s₂, rfl, h1, h2⟩ := hs
  rw [List.cons_sublist_iff] at h2
  obtain ⟨t₁, t₂, rfl, hat, _⟩ := h2
  obtain ⟨u, u', rfl⟩ := List.append_of_mem hat
  intro hreach
  have hdecomp : s₁ ++ (u ++ e :: u' ++ t₂) = (s₁ ++ u) ++ e :: (u' ++ t₂) := by
    simp
  have hsub : ∀ x ∈ p, x ∈ s₁ ++ u :=
    fun x hx => (h1.trans (List.sublist_append_left s₁ u)).mem hx
  exact h (s₁ ++ u) e (u' ++ t₂) hdecomp (hreach.mono hsub)

theorem IsForest.of_append_left {E F : List Edge} (h : IsForest (E ++ F)) :
    IsForest E := by
  intro p e s hsplit
  refine h p e (s ++ F) ?_
  rw [hsplit]
  simp

/-! ## Counting roots -/

/-- The number of roots of the `parent` array among the vertices `[0, v)`.
During a run of the algorithm this is the number of disjoint sets. -/
def rootCount (v : Nat) (parent : List Nat) : Nat :=
  ((Finset.range v).filter (fun j => pget parent j = j)).card

theorem rootCount_init (v : Nat) : rootCount v (List.range v) = v := by
  rw [rootCount]
  have hall : ∀ j ∈ Finset.range v, pget (List.range v) j = j := by
    intro j hj
    have hjv : j < v := Finset.mem_range.mp hj
    have hjl : j < (List.range v).length := by rwa [List.length_range]
    rw [pget, List.getD_eq_getElem?_getD, List.getElem?_eq_getElem hjl,
      List.getElem_range]
    rfl
  rw [Finset.filter_true_of_mem hall, Finset.card_range]

theorem rootCount_link {v : Nat} {parent : List Nat} (hlen : parent.length = v)
    {r1 r2 : Nat} (h2 : r2 < v) (hr2 : isRoot parent r2) (hne : r1 ≠ r2) :
    rootCount v (parent.set r2 r1) = rootCount v parent - 1 := by
  have h2l : r2 < parent.length := hlen ▸ h2
  have hfilter : (Finset.range v).filter (fun j => pget (parent.set r2 r1) j = j) =
      ((Finset.range v).filter (fun j => pget parent j = j)).erase r2 := by
    ext j
    rw [Finset.mem_erase, Finset.mem_filter, Finset.mem_filter]
    constructor
    · rintro ⟨hjr, hj⟩
      rw [pget_set h2l] at hj
      by_cases hj2 : r2 = j
      · rw [if_pos hj2] at hj
        exact absurd (hj.trans hj2.symm) hne
      · rw [if_neg hj2] at hj
        exact ⟨fun h => hj2 h.symm, hjr, hj⟩
    · rintro ⟨hjne, hjr, hj⟩
      refine ⟨hjr, ?_⟩
      rw [pget_set h2l, if_neg (fun h => hjne h.symm)]
      exact hj
  rw [rootCount, rootCount, hfilter, Finset.card_erase_of_mem]
  rw [Finset.mem_filter]
  exact ⟨Finset.mem_range.mpr h2, hr2⟩

theorem rootD_mem_rootFilter {v : Nat} {parent : List Nat} (h : ForestInv v parent)
    {j : Nat} (hj : j < v) :
    rootD parent j ∈ (Finset.range v).filter (fun i => pget parent i = i) := by
  rw [Finset.mem_filter]
  exact ⟨Finset.mem_range.mpr (rootD_lt h hj), rootD_isRoot h hj⟩

theorem rootCount_pos {v : Nat} {parent : List Nat} (h : ForestInv v parent)
    (hv : 0 < v) : 0 < rootCount v parent := by
  rw [rootCount]
  exact Finset.card_pos.mpr ⟨rootD parent 0, rootD_mem_rootFilter h hv⟩

/-- Under the forest invariant, the set of roots is the image of `rootD`
over all vertices. -/
theorem roots_eq_image {v : Nat} {parent : List Nat} (h : ForestInv v parent) :
    (Finset.range v).filter (fun j => pget parent j = j) =
      Finset.image (rootD parent) (Finset.range v) := by
  ext r
  rw [Finset.mem_filter, Finset.mem_image]
  constructor
  · rintro ⟨hr, hroot⟩
    exact ⟨r, hr, rootD_of_isRoot hroot⟩
  · rintro ⟨j, hj, rfl⟩
    have hjv : j < v := Finset.mem_range.mp hj
    exact ⟨Finset.mem_range.mpr (rootD_lt h hjv), rootD_isRoot h hjv⟩

/-! ## The invariant tying union-find state to the accepted edges -/

/-- What `union` computes when handed two in-range roots: exactly the
rank-comparison of the source. -/
theorem union_eq {parent rank : List Nat} {x y : Nat}
    (hx : x < parent.length) (hy : y < parent.length)
    (hrx : isRoot parent x) (hry : isRoot parent y)
    (hxr : x < rank.length) (hyr : y < rank.length) :
    union parent rank x y =
      if rank.getD x 0 < rank.getD y 0 then some (parent.set x y, rank)
      else if rank.getD y 0 < rank.getD x 0 then some (parent.set y x, rank)
      else some (parent.set y x, rank.set x (rank.getD x 0 + 1)) := by
  have hgx : rank.get? x = some (rank.getD x 0) := by
    rw [List.get?_eq_getElem?, List.getElem?_eq_getElem hxr,
      List.getD_eq_getElem?_getD, List.getElem?_eq_getElem hxr]
    rfl
  have hgy : rank.get? y = some (rank.getD y 0) := by
    rw [List.get?_eq_getElem?, List.getElem?_eq_getElem hyr,
      List.getD_eq_getElem?_getD, List.getElem?_eq_getElem hyr]
    rfl
  simp only [union, find_of_isRoot hx hrx, find_of_isRoot hy hry, hgx, hgy]

/-- How equality of re-linked roots decomposes, given `r1 ≠ r2`. -/
theorem ite_link_iff {r1 r2 A B : Nat} (hne : r1 ≠ r2) :
    ((if A = r2 then r1 else A) = (if B = r2 then r1 else B)) ↔
      (A = B ∨ (A = r2 ∧ B = r1) ∨ (A = r1 ∧ B = r2)) := by
  by_cases hA : A = r2 <;> by_cases hB : B = r2 <;> simp [hA, hB] <;> omega

/-- The union-find state invariant carried through the edge-processing loop:
`parent` is a forest on `v` vertices, `rank` has the right length, two
vertices share a root exactly when the accepted edges `mst` connect them,
the number of roots is `v` minus the number of accepted edges, the accepted
edges form a forest, and their endpoints are vertices. -/
structure CoreInv (v : Nat) (parent rank : List Nat) (mst : List Edge) : Prop where
  forest : ForestInv v parent
  ranklen : rank.length = v
  roots_iff : ∀ a b, a < v → b < v →
    (rootD parent a = rootD parent b ↔ Reach mst a b)
  count : rootCount v parent = v - mst.length
  mforest : IsForest mst
  mok : ∀ e ∈ mst, e.1 < v ∧ e.2.1 < v

theorem coreInv_init (v : Nat) :
    CoreInv v (List.range v) (List.replicate v 0) [] := by
  have hlen : (List.range v).length = v := List.length_range v
  have hself : ∀ j, j < v → pget (List.range v) j = j := by
    intro j hj
    have hjl : j < (List.range v).length := by rwa [hlen]
    rw [pget, List.getD_eq_getElem?_getD, List.getElem?_eq_getElem hjl,
      List.getElem_range]
    rfl
  have hforest : ForestInv v (List.range v) := by
    refine ⟨hlen, ?_, ?_⟩
    · intro j hj; rw [hself j hj]; exact hj
    · intro j hj
      have habs : pIter (List.range v) v j = j := pIter_root (hself j hj) v
      rw [habs]
      exact hself j hj
  refine ⟨hforest, List.length_replicate v 0, ?_, ?_, IsForest.nil, by simp⟩
  · intro a b ha hb
    have hra : rootD (List.range v) a = a := rootD_of_isRoot (hself a ha)
    have hrb : rootD (List.range v) b = b := rootD_of_isRoot (hself b hb)
    rw [hra, hrb]
    exact ⟨fun h => h ▸ Reach.refl, fun h => Reach_nil h⟩
  · rw [rootCount_init]; rfl

/-- Linking the two (distinct) roots of a newly accepted edge's endpoints
preserves the invariant, for any new rank array of the right length. -/
theorem coreInv_link {v : Nat} {parent rank : List Nat} {mst : List Edge}
    (hc : CoreInv v parent rank mst) {u uv : Nat} {w : Int}
    (hu : u < v) (huv : uv < v)
    (hxy : rootD parent u ≠ rootD parent uv)
    {r1 r2 : Nat}
    (hswap : (r2 = rootD parent u ∧ r1 = rootD parent uv) ∨
      (r2 = rootD parent uv ∧ r1 = rootD parent u))
    {rank' : List Nat} (hr'len : rank'.length = v) :
    CoreInv v (parent.set r2 r1) rank' (mst ++ [(u, uv, w)]) := by
  obtain ⟨hforest, hranklen, hroots, hcount, hmfor, hmok⟩ := hc
  have hx : rootD parent u < v := rootD_lt hforest hu
  have hy : rootD parent uv < v := rootD_lt hforest huv
  have hxroot : isRoot parent (rootD parent u) := rootD_isRoot hforest hu
  have hyroot : isRoot parent (rootD parent uv) := rootD_isRoot hforest huv
  have h1 : r1 < v := by rcases hswap with ⟨_, h⟩ | ⟨_, h⟩ <;> rw [h] <;> assumption
  have h2 : r2 < v := by rcases hswap with ⟨h, _⟩ | ⟨h, _⟩ <;> rw [h] <;> assumption
  have hr1 : isRoot parent r1 := by
    rcases hswap with ⟨_, h⟩ | ⟨_, h⟩ <;> rw [h] <;> assumption
  have hr2 : isRoot parent r2 := by
    rcases hswap with ⟨h, _⟩ | ⟨h, _⟩ <;> rw [h] <;> assumption
  have hne : r1 ≠ r2 := by
    rcases hswap with ⟨ha, hb⟩ | ⟨ha, hb⟩ <;> rw [ha, hb]
    · exact fun h => hxy h.symm
    · exact hxy
  have hnreach : ¬ Reach mst u uv := fun h => hxy ((hroots u uv hu huv).mpr h)
  have hlink : ForestInv v (parent.set r2 r1) := hforest.link h1 h2 hr1 hr2 hne
  have hrootD : ∀ j, j < v → rootD (parent.set r2 r1) j =
      if rootD parent j = r2 then r1 else rootD parent j :=
    fun j hj => rootD_link hforest h1 h2 hr1 hr2 hne hj
  refine ⟨hlink, hr'len, ?_, ?_, hmfor.append_single hnreach, ?_⟩
  · intro a b ha hb
    rw [hrootD a ha, hrootD b hb]
    have h1' := hroots a b ha hb
    have h2' := hroots a u ha hu
    have h3' := hroots uv b huv hb
    have h4' := hroots a uv ha huv
    have h5' := hroots u b hu hb
    rw [reach_append_single]
    show _ ↔ Reach mst a b ∨ (Reach mst a u ∧ Reach mst uv b) ∨
      (Reach mst a uv ∧ Reach mst u b)
    rw [ite_link_iff hne, ← h1', ← h2', ← h3', ← h4', ← h5']
    rcases hswap with ⟨hs2, hs1⟩ | ⟨hs2, hs1⟩ <;> omega
  · have hcard2 : 2 ≤ rootCount v parent := by
      rw [rootCount]
      rw [show (2 : Nat) = 1 + 1 from rfl]
      refine Finset.one_lt_card.mpr ?_
      refine ⟨rootD parent u, rootD_mem_rootFilter hforest hu,
        rootD parent uv, rootD_mem_rootFilter hforest huv, hxy⟩
    rw [rootCount_link hforest.1 h2 hr2 hne, hcount]
    have hlen2 : v - mst.length = rootCount v parent := hcount.symm
    rw [List.length_append, List.length_singleton]
    omega
  · intro e he
    rcases List.mem_append.mp he with h | h
    · exact hmok e h
    · rw [List.mem_singleton.mp h]
      exact ⟨hu, huv⟩

/-! ## Soundness of the greedy loop -/

instance : IsTotal Edge (fun a b => wt a ≤ wt b) :=
  ⟨fun a b => le_total (wt a) (wt b)⟩

instance : IsTrans Edge (fun a b => wt a ≤ wt b) :=
  ⟨fun _ _ _ hab hbc => le_trans hab hbc⟩

theorem prefix_take_eq {l out : List Edge} (h : l <+: out) :
    out.take l.length = l :=
  (List.prefix_iff_eq_take.mp h).symm

theorem prefix_getElem {l : List Edge} {ed : Edge} {out : List Edge}
    (h : (l ++ [ed]) <+: out) (hk : l.length < out.length) :
    out.get ⟨l.length, hk⟩ = ed := by
  obtain ⟨t, rfl⟩ := h
  have hshape : (l ++ [ed]) ++ t = l ++ ed :: t := by simp
  have hk' : l.length < ((l ++ [ed]) ++ t).length := hk
  rw [List.get_eq_getElem]
  conv in (l ++ [ed]) ++ t => rw [hshape]
  rw [List.getElem_append_right (le_refl l.length)]
  simp

/-- When the accepted edges have reached count `v - 1`, one root remains and
the accepted edges connect all vertices. -/
theorem coreInv_spans {v : Nat} {parent rank : List Nat} {mst : List Edge}
    (hcore : CoreInv v parent rank mst) (hlen : mst.length = v - 1) :
    ∀ a b, a < v → b < v → Reach mst a b := by
  intro a b ha hb
  have hv : 0 < v := lt_of_le_of_lt (Nat.zero_le a) ha
  have hcount1 : rootCount v parent = 1 := by
    have := hcore.count
    rw [hlen] at this
    have hpos := rootCount_pos hcore.forest hv
    omega
  obtain ⟨c, hc⟩ := Finset.card_eq_one.mp hcount1
  have hma : rootD parent a ∈ ({c} : Finset Nat) :=
    hc ▸ rootD_mem_rootFilter hcore.forest ha
  have hmb : rootD parent b ∈ ({c} : Finset Nat) :=
    hc ▸ rootD_mem_rootFilter hcore.forest hb
  exact (hcore.roots_iff a b ha hb).mp
    ((Finset.mem_singleton.mp hma).trans (Finset.mem_singleton.mp hmb).symm)

/-- With at least two accepted edges still missing, two distinct roots remain. -/
theorem coreInv_two_roots {v : Nat} {parent rank : List Nat} {mst : List Edge}
    (hcore : CoreInv v parent rank mst) (hlen : mst.length < v - 1) :
    ∃ r r', r < v ∧ r' < v ∧ r ≠ r' ∧ rootD parent r = r ∧ rootD parent r' = r' := by
  have hcard : 1 < rootCount v parent := by
    have := hcore.count
    omega
  obtain ⟨r, hr, r', hr', hne⟩ := Finset.one_lt_card.mp hcard
  rw [Finset.mem_filter] at hr hr'
  exact ⟨r, r', Finset.mem_range.mp hr.1, Finset.mem_range.mp hr'.1, hne,
    rootD_of_isRoot hr.2, rootD_of_isRoot hr'.2⟩

/-- The main loop lemma: from any state satisfying the invariant, on a
connected graph the loop returns a spanning forest of `v - 1` edges drawn
from the sorted list, extending the current accepted edges, and every edge of
the input lighter than the `k`-th accepted edge already has its endpoints
connected by the first `k` accepted edges. -/
theorem kruskalLoop_sound {v : Nat} {all : List Edge}
    (hok : ∀ e ∈ all, e.1 < v ∧ e.2.1 < v)
    (hsort : List.Sorted (fun a b : Edge => wt a ≤ wt b) all)
    (hconn : ∀ a b, a < v → b < v → Reach all a b) :
    ∀ rest done parent rank mst,
      all = done ++ rest →
      CoreInv v parent rank mst →
      (∀ e ∈ done, Reach mst e.1 e.2.1) →
      (∀ e ∈ mst, e ∈ all) →
      mst.length ≤ v - 1 →
      ∃ out, kruskalLoop v rest parent rank mst.length mst = some out ∧
        mst <+: out ∧ out.length = v - 1 ∧ IsForest out ∧
        (∀ e ∈ out, e ∈ all) ∧
        (∀ a b, a < v → b < v → Reach out a b) ∧
        (∀ k, ∀ hk : k < out.length, mst.length ≤ k →
          ∀ f ∈ all, wt f < wt (out.get ⟨k, hk⟩) →
            Reach (out.take k) f.1 f.2.1) := by
  intro rest
  induction rest with
  | nil =>
    intro done parent rank mst hsplit hcore hdone hsub hlen
    by_cases hguard : mst.length < v - 1
    · -- the sorted edges ran out with too few accepted: impossible on a
      -- connected graph, since at least two roots would remain
      exfalso
      rw [List.append_nil] at hsplit
      have hcov : ∀ e ∈ all, Reach mst e.1 e.2.1 := hsplit ▸ hdone
      obtain ⟨r, r', hr, hr', hne, hrr, hrr'⟩ := coreInv_two_roots hcore hguard
      have hreach : Reach mst r r' := Reach.cover hcov (hconn r r' hr hr')
      have := (hcore.roots_iff r r' hr hr').mpr hreach
      rw [hrr, hrr'] at this
      exact hne this
    · have hmlen : mst.length = v - 1 := le_antisymm hlen (not_lt.mp hguard)
      refine ⟨mst, ?_, List.prefix_refl _, hmlen, hcore.mforest, hsub,
        coreInv_spans hcore hmlen, ?_⟩
      · rw [kruskalLoop, if_neg hguard]
      · intro k hk hge f hf hwt
        rw [hmlen] at hge
        omega
  | cons ed rest' ih =>
    intro done parent rank mst hsplit hcore hdone hsub hlen
    obtain ⟨u, uvv, w⟩ := ed
    by_cases hguard : mst.length < v - 1
    · have hedin : (u, uvv, w) ∈ all := by
        rw [hsplit]
        exact List.mem_append.mpr (Or.inr (List.mem_cons_self _ _))
      obtain ⟨hu, huv⟩ := hok _ hedin
      have hfindu : find parent u = some (rootD parent u) :=
        find_eq_rootD hcore.forest hu
      have hfinduv : find parent uvv = some (rootD parent uvv) :=
        find_eq_rootD hcore.forest huv
      have hsplit' : all = (done ++ [(u, uvv, w)]) ++ rest' := by
        rw [hsplit]; simp
      have hlater : ∀ f ∈ rest', wt (u, uvv, w) ≤ wt f := by
        have hsubl : ((u, uvv, w) :: rest').Sublist all := by
          rw [hsplit]
          exact List.sublist_append_right done _
        have hpw : List.Pairwise (fun a b : Edge => wt a ≤ wt b) ((u, uvv, w) :: rest') :=
          List.Pairwise.sublist hsubl hsort
        exact (List.pairwise_cons.mp hpw).1
      by_cases heq : rootD parent u = rootD parent uvv
      · -- skipped edge: endpoints already in the same set
        have hreach : Reach mst u uvv := (hcore.roots_iff u uvv hu huv).mp heq
        have hstep : kruskalLoop v ((u, uvv, w) :: rest') parent rank mst.length mst =
            kruskalLoop v rest' parent rank mst.length mst := by
          rw [kruskalLoop, if_pos hguard]
          simp only [hfindu, hfinduv]
          rw [if_pos heq]
        rw [hstep]
        refine ih (done ++ [(u, uvv, w)]) parent rank mst hsplit' hcore ?_ hsub hlen
        intro e he
        rcases List.mem_append.mp he with h | h
        · exact hdone e h
        · rw [List.mem_singleton.mp h]
          exact hreach
      · -- accepted edge: link the two roots
        have hx : rootD parent u < v := rootD_lt hcore.forest hu
        have hy : rootD parent uvv < v := rootD_lt hcore.forest huv
        have hxl : rootD parent u < parent.length := hcore.forest.1 ▸ hx
        have hyl : rootD parent uvv < parent.length := hcore.forest.1 ▸ hy
        have hxr : rootD parent u < rank.length := hcore.ranklen ▸ hx
        have hyr : rootD parent uvv < rank.length := hcore.ranklen ▸ hy
        have hxroot : isRoot parent (rootD parent u) := rootD_isRoot hcore.forest hu
        have hyroot : isRoot parent (rootD parent uvv) := rootD_isRoot hcore.forest huv
        have hun := union_eq hxl hyl hxroot hyroot hxr hyr
        -- pick out the three rank cases uniformly
        obtain ⟨p', r', hunion, hswap, hr'len⟩ :
            ∃ p' r', union parent rank (rootD parent u) (rootD parent uvv) =
                some (p', r') ∧
              ((∃ r1 r2, p' = parent.set r2 r1 ∧
                ((r2 = rootD parent u ∧ r1 = rootD parent uvv) ∨
                  (r2 = rootD parent uvv ∧ r1 = rootD parent u)))) ∧
              r'.length = v := by
          split_ifs at hun with hc1 hc2
          · exact ⟨_, _, hun, ⟨_, _, rfl, Or.inl ⟨rfl, rfl⟩⟩, hcore.ranklen⟩
          · exact ⟨_, _, hun, ⟨_, _, rfl, Or.inr ⟨rfl, rfl⟩⟩, hcore.ranklen⟩
          · exact ⟨_, _, hun, ⟨_, _, rfl, Or.inr ⟨rfl, rfl⟩⟩,
              by rw [List.length_set]; exact hcore.ranklen⟩
        obtain ⟨r1, r2, rfl, hsw⟩ := hswap
        have hcore' : CoreInv v (parent.set r2 r1) r' (mst ++ [(u, uvv, w)]) :=
          coreInv_link hcore hu huv heq hsw hr'len
        have hstep : kruskalLoop v ((u, uvv, w) :: rest') parent rank mst.length mst =
            kruskalLoop v rest' (parent.set r2 r1) r' (mst.length + 1)
              (mst ++ [(u, uvv, w)]) := by
          rw [kruskalLoop, if_pos hguard]
          simp only [hfindu, hfinduv]
          rw [if_neg heq]
          simp only [hunion]
        rw [hstep]
        have hdone' : ∀ e ∈ done ++ [(u, uvv, w)],
            Reach (mst ++ [(u, uvv, w)]) e.1 e.2.1 := by
          intro e he
          rcases List.mem_append.mp he with h | h
          · exact (hdone e h).mono (fun x hx => List.mem_append.mpr (Or.inl hx))
          · rw [List.mem_singleton.mp h]
            exact Reach.of_mem (List.mem_append.mpr (Or.inr (List.mem_singleton.mpr rfl)))
        have hsub' : ∀ e ∈ mst ++ [(u, uvv, w)], e ∈ all := by
          intro e he
          rcases List.mem_append.mp he with h | h
          · exact hsub e h
          · rw [List.mem_singleton.mp h]
            exact hedin
        have hlen' : (mst ++ [(u, uvv, w)]).length ≤ v - 1 := by
          rw [List.length_append, List.length_singleton]
          omega
        obtain ⟨out, hloop, hpre, houtlen, houtfor, houtsub, houtspan, houtP⟩ :=
          ih (done ++ [(u, uvv, w)]) (parent.set r2 r1) r' (mst ++ [(u, uvv, w)])
            hsplit' hcore' hdone' hsub' hlen'
        rw [List.length_append, List.length_singleton] at hloop
        refine ⟨out, hloop, (List.prefix_append mst [(u, uvv, w)]).trans hpre,
          houtlen, houtfor, houtsub, houtspan, ?_⟩
        intro k hk hge f hf hwt
        by_cases hgek : mst.length + 1 ≤ k
        · refine houtP k hk ?_ f hf hwt
          rw [List.length_append, List.length_singleton]
          exact hgek
        · have hkeq : k = mst.length := by omega
          have hmstpre : mst <+: out :=
            (List.prefix_append mst [(u, uvv, w)]).trans hpre
          have hget : out.get ⟨k, hk⟩ = (u, uvv, w) := by
            subst hkeq
            exact prefix_getElem hpre hk
          rw [hget] at hwt
          have htake : out.take k = mst := by
            rw [hkeq]
            exact prefix_take_eq hmstpre
          rw [htake]
          rw [hsplit] at hf
          rcases List.mem_append.mp hf with h | h
          · exact hdone f h
          · rcases List.mem_cons.mp h with h' | h'
            · rw [h'] at hwt
              exact absurd hwt (lt_irrefl _)
            · exact absurd hwt (not_lt.mpr (hlater f h'))
    · have hmlen : mst.length = v - 1 := le_antisymm hlen (not_lt.mp hguard)
      refine ⟨mst, ?_, List.prefix_refl _, hmlen, hcore.mforest, hsub,
        coreInv_spans hcore hmlen, ?_⟩
      · rw [kruskalLoop, if_neg hguard]
      · intro k hk hge f hf hwt
        rw [hmlen] at hge
        omega

/-- All endpoints of the graph's edges are vertex indices. -/
abbrev EdgesOk (g : Graph) : Prop := ∀ e ∈ g.graph, e.1 < g.v ∧ e.2.1 < g.v

/-- The graph's edges connect every pair of vertices. -/
def ConnectedG (g : Graph) : Prop :=
  ∀ a b, a < g.v → b < g.v → Reach g.graph a b

/-- Combined soundness of `kruskalMST` on connected well-formed graphs. -/
theorem kruskalMST_sound {g : Graph} (hok : EdgesOk g) (hconn : ConnectedG g) :
    ∃ out, kruskalMST g = some (out, (out.map wt).sum) ∧
      out.length = g.v - 1 ∧ IsForest out ∧
      (∀ e ∈ out, e ∈ g.graph) ∧
      (∀ a b, a < g.v → b < g.v → Reach out a b) ∧
      (∀ k, ∀ hk : k < out.length,
        ∀ f ∈ g.graph, wt f < wt (out.get ⟨k, hk⟩) →
          Reach (out.take k) f.1 f.2.1) := by
  have hperm : (sortEdges g.graph).Perm g.graph :=
    List.perm_insertionSort _ _
  have hmem : ∀ e : Edge, e ∈ sortEdges g.graph ↔ e ∈ g.graph :=
    fun e => hperm.mem_iff
  have hok' : ∀ e ∈ sortEdges g.graph, e.1 < g.v ∧ e.2.1 < g.v :=
    fun e he => hok e ((hmem e).mp he)
  have hsort : List.Sorted (fun a b : Edge => wt a ≤ wt b) (sortEdges g.graph) :=
    List.sorted_insertionSort _ _
  have hconn' : ∀ a b, a < g.v → b < g.v → Reach (sortEdges g.graph) a b :=
    fun a b ha hb => (hconn a b ha hb).mono (fun e he => (hmem e).mpr he)
  obtain ⟨out, hloop, _, houtlen, houtfor, houtsub, houtspan, houtP⟩ :=
    kruskalLoop_sound hok' hsort hconn' (sortEdges g.graph) []
      (List.range g.v) (List.replicate g.v 0) [] rfl (coreInv_init g.v)
      (by simp) (by simp) (Nat.zero_le _)
  rw [List.length_nil] at hloop
  refine ⟨out, ?_, houtlen, houtfor,
    fun e he => (hmem e).mp (houtsub e he), houtspan, ?_⟩
  · rw [kruskalMST, hloop]
  · intro k hk f hf hwt
    exact houtP k hk (Nat.zero_le k) f ((hmem f).mpr hf) hwt

/-! ## A union-find pass over a whole edge list

Processing every edge of a list through the same find/union step as the
algorithm (without the early-exit guard) computes the connected components of
the list.  This is used to count components of arbitrary edge lists. -/

/-- Process all edges through find/union, accumulating the accepted ones. -/
def ufFold (v : Nat) : List Edge → List Nat → List Nat → List Edge →
    Option (List Nat × List Nat × List Edge)
  | [], parent, rank, acc => some (parent, rank, acc)
  | (u, uv, _w) :: es, parent, rank, acc =>
    match find parent u, find parent uv with
    | some x, some y =>
      if x = y then ufFold v es parent rank acc
      else
        match union parent rank x y with
        | some (p', r') => ufFold v es p' r' (acc ++ [(u, uv, _w)])
        | none => none
    | _, _ => none

theorem ufFold_sound {v : Nat} : ∀ (rest : List Edge) (parent rank : List Nat)
    (acc : List Edge),
    (∀ e ∈ rest, e.1 < v ∧ e.2.1 < v) →
    CoreInv v parent rank acc →
    ∃ p₁ r₁ acc₁, ufFold v rest parent rank acc = some (p₁, r₁, acc₁) ∧
      CoreInv v p₁ r₁ acc₁ ∧ acc <+: acc₁ ∧
      acc₁.Sublist (acc ++ rest) ∧
      (∀ e ∈ rest, Reach acc₁ e.1 e.2.1) ∧
      (IsForest (acc ++ rest) → acc₁ = acc ++ rest) := by
  intro rest
  induction rest with
  | nil =>
    intro parent rank acc _ hcore
    refine ⟨parent, rank, acc, rfl, hcore, List.prefix_refl _, ?_, ?_, ?_⟩
    · simp
    · intro e he; exact absurd he (List.not_mem_nil e)
    · intro _; simp
  | cons ed es ih =>
    intro parent rank acc hokr hcore
    obtain ⟨u, uvv, w⟩ := ed
    obtain ⟨hu, huv⟩ := hokr _ (List.mem_cons_self _ _)
    have hokr' : ∀ e ∈ es, e.1 < v ∧ e.2.1 < v :=
      fun e he => hokr e (List.mem_cons_of_mem _ he)
    have hfindu : find parent u = some (rootD parent u) :=
      find_eq_rootD hcore.forest hu
    have hfinduv : find parent uvv = some (rootD parent uvv) :=
      find_eq_rootD hcore.forest huv
    by_cases heq : rootD parent u = rootD parent uvv
    · have hreach : Reach acc u uvv := (hcore.roots_iff u uvv hu huv).mp heq
      have hstep : ufFold v ((u, uvv, w) :: es) parent rank acc =
          ufFold v es parent rank acc := by
        rw [ufFold]
        simp only [hfindu, hfinduv]
        rw [if_pos heq]
      obtain ⟨p₁, r₁, acc₁, hrun, hcore₁, hpre, hsubl, hcov, hfor⟩ :=
        ih parent rank acc hokr' hcore
      refine ⟨p₁, r₁, acc₁, hstep ▸ hrun, hcore₁, hpre, ?_, ?_, ?_⟩
      · exact hsubl.trans (List.append_sublist_append_left acc |>.mpr
          (List.sublist_cons_self _ _))
      · intro e he
        rcases List.mem_cons.mp he with h | h
        · rw [h]
          exact hreach.mono (fun x hx => hpre.subset hx)
        · exact hcov e h
      · intro hforall
        exact absurd hreach (hforall acc (u, uvv, w) es rfl)
    · have hx : rootD parent u < v := rootD_lt hcore.forest hu
      have hy : rootD parent uvv < v := rootD_lt hcore.forest huv
      have hxl : rootD parent u < parent.length := hcore.forest.1 ▸ hx
      have hyl : rootD parent uvv < parent.length := hcore.forest.1 ▸ hy
      have hxr : rootD parent u < rank.length := hcore.ranklen ▸ hx
      have hyr : rootD parent uvv < rank.length := hcore.ranklen ▸ hy
      have hxroot : isRoot parent (rootD parent u) := rootD_isRoot hcore.forest hu
      have hyroot : isRoot parent (rootD parent uvv) := rootD_isRoot hcore.forest huv
      have hun := union_eq hxl hyl hxroot hyroot hxr hyr
      obtain ⟨p', r', hunion, hswap, hr'len⟩ :
          ∃ p' r', union parent rank (rootD parent u) (rootD parent uvv) =
              some (p', r') ∧
            ((∃ r1 r2, p' = parent.set r2 r1 ∧
              ((r2 = rootD parent u ∧ r1 = rootD parent uvv) ∨
                (r2 = rootD parent uvv ∧ r1 = rootD parent u)))) ∧
            r'.length = v := by
        split_ifs at hun with hc1 hc2
        · exact ⟨_, _, hun, ⟨_, _, rfl, Or.inl ⟨rfl, rfl⟩⟩, hcore.ranklen⟩
        · exact ⟨_, _, hun, ⟨_, _, rfl, Or.inr ⟨rfl, rfl⟩⟩, hcore.ranklen⟩
        · exact ⟨_, _, hun, ⟨_, _, rfl, Or.inr ⟨rfl, rfl⟩⟩,
            by rw [List.length_set]; exact hcore.ranklen⟩
      obtain ⟨r1, r2, rfl, hsw⟩ := hswap
      have hcore' : CoreInv v (parent.set r2 r1) r' (acc ++ [(u, uvv, w)]) :=
        coreInv_link hcore hu huv heq hsw hr'len
      have hstep : ufFold v ((u, uvv, w) :: es) parent rank acc =
          ufFold v es (parent.set r2 r1) r' (acc ++ [(u, uvv, w)]) := by
        rw [ufFold]
        simp only [hfindu, hfinduv]
        rw [if_neg heq]
        simp only [hunion]
      obtain ⟨p₁, r₁, acc₁, hrun, hcore₁, hpre, hsubl, hcov, hfor⟩ :=
        ih (parent.set r2 r1) r' (acc ++ [(u, uvv, w)]) hokr' hcore'
      have hshape : (acc ++ [(u, uvv, w)]) ++ es = acc ++ (u, uvv, w) :: es := by
        simp
      refine ⟨p₁, r₁, acc₁, hstep ▸ hrun, hcore₁,
        (List.prefix_append acc [(u, uvv, w)]).trans hpre, ?_, ?_, ?_⟩
      · rw [← hshape]
        exact hsubl
      · intro e he
        rcases List.mem_cons.mp he with h | h
        · rw [h]
          have hmem1 : ((u, uvv, w) : Edge) ∈ acc ++ [(u, uvv, w)] :=
            List.mem_append.mpr (Or.inr (List.mem_singleton.mpr rfl))
          have hr : Reach (acc ++ [(u, uvv, w)]) (u, uvv, w).1 (u, uvv, w).2.1 :=
            Reach.of_mem hmem1
          exact hr.mono (fun x hx => hpre.subset hx)
        · exact hcov e h
      · intro hforall
        rw [← hshape] at hforall
        rw [hfor hforall, hshape]

/-- Run the union-find pass on a whole edge list from the initial state. -/
def ufRun (v : Nat) (E : List Edge) : Option (List Nat × List Nat × List Edge) :=
  ufFold v E (List.range v) (List.replicate v 0) []

theorem ufRun_sound {v : Nat} {E : List Edge}
    (hok : ∀ e ∈ E, e.1 < v ∧ e.2.1 < v) :
    ∃ p r acc, ufRun v E = some (p, r, acc) ∧ CoreInv v p r acc ∧
      acc.Sublist E ∧
      (∀ a b, a < v → b < v → (rootD p a = rootD p b ↔ Reach E a b)) ∧
      (IsForest E → acc = E) := by
  obtain ⟨p, r, acc, hrun, hcore, _, hsubl, hcov, hfor⟩ :=
    ufFold_sound E (List.range v) (List.replicate v 0) [] hok (coreInv_init v)
  rw [List.nil_append] at hsubl hfor
  refine ⟨p, r, acc, hrun, hcore, hsubl, ?_, hfor⟩
  intro a b ha hb
  rw [hcore.roots_iff a b ha hb]
  constructor
  · intro h
    exact h.mono (fun e he => hsubl.mem he)
  · intro h
    exact Reach.cover hcov h

/-- Number of connected components of the edge list `E` on vertex set
`[0, v)`, computed by the union-find pass. -/
def ncomp (v : Nat) (E : List Edge) : Nat :=
  match ufRun v E with
  | some (p, _, _) => rootCount v p
  | none => 0

theorem ncomp_forest {v : Nat} {E : List Edge}
    (hok : ∀ e ∈ E, e.1 < v ∧ e.2.1 < v) (hfor : IsForest E) :
    ncomp v E = v - E.length := by
  obtain ⟨p, r, acc, hrun, hcore, _, _, hacc⟩ := ufRun_sound hok
  simp only [ncomp, hrun]
  have := hcore.count
  rw [hacc hfor] at this
  exact this

theorem ncomp_spans {v : Nat} {E : List Edge}
    (hok : ∀ e ∈ E, e.1 < v ∧ e.2.1 < v) (hv : 0 < v)
    (hspan : ∀ a b, a < v → b < v → Reach E a b) :
    ncomp v E = 1 := by
  obtain ⟨p, r, acc, hrun, hcore, _, hroots, _⟩ := ufRun_sound hok
  simp only [ncomp, hrun]
  have hall : ∀ j, j < v → rootD p j = rootD p 0 :=
    fun j hj => (hroots j 0 hj hv).mpr (hspan j 0 hj hv)
  have hfilter : (Finset.range v).filter (fun j => pget p j = j) = {rootD p 0} := by
    rw [roots_eq_image hcore.forest]
    ext c
    rw [Finset.mem_image, Finset.mem_singleton]
    constructor
    · rintro ⟨j, hj, rfl⟩
      exact hall j (Finset.mem_range.mp hj)
    · rintro rfl
      exact ⟨0, Finset.mem_range.mpr hv, rfl⟩
  rw [rootCount, hfilter, Finset.card_singleton]

/-- Coarsening monotonicity: components of a finer connectivity are at least
as many. -/
theorem ncomp_mono {v : Nat} {E E' : List Edge}
    (hok : ∀ e ∈ E, e.1 < v ∧ e.2.1 < v)
    (hok' : ∀ e ∈ E', e.1 < v ∧ e.2.1 < v)
    (hsub : ∀ a b, a < v → b < v → Reach E a b → Reach E' a b) :
    ncomp v E' ≤ ncomp v E := by
  obtain ⟨p, r, acc, hrun, hcore, _, hroots, _⟩ := ufRun_sound hok
  obtain ⟨p', r', acc', hrun', hcore', _, hroots', _⟩ := ufRun_sound hok'
  simp only [ncomp, hrun, hrun']
  rw [rootCount, rootCount, roots_eq_image hcore.forest,
    roots_eq_image hcore'.forest]
  have hcompat : ∀ j ∈ Finset.range v, rootD p' j = (rootD p' ∘ rootD p) j := by
    intro j hj
    have hjv : j < v := Finset.mem_range.mp hj
    have hrootlt : rootD p j < v := rootD_lt hcore.forest hjv
    have hreach : Reach E j (rootD p j) := by
      refine (hroots j (rootD p j) hjv hrootlt).mp ?_
      rw [rootD_of_isRoot (rootD_isRoot hcore.forest hjv)]
    have := (hroots' j (rootD p j) hjv hrootlt).mpr
      (hsub j (rootD p j) hjv hrootlt hreach)
    exact this
  rw [Finset.image_congr hcompat, ← Finset.image_image]
  exact Finset.card_image_le

/-! ## Decidable checkers (used to discharge hypotheses on concrete inputs) -/

/-- Boolean connectivity check via the union-find pass. -/
def connCheck (v : Nat) (E : List Edge) : Bool :=
  match ufRun v E with
  | some (p, _, _) => (List.range v).all (fun j => rootD p j = rootD p 0)
  | none => false

theorem conn_of_connCheck {v : Nat} {E : List Edge}
    (hok : ∀ e ∈ E, e.1 < v ∧ e.2.1 < v) (hc : connCheck v E = true) :
    ∀ a b, a < v → b < v → Reach E a b := by
  obtain ⟨p, r, acc, hrun, hcore, _, hroots, _⟩ := ufRun_sound hok
  simp only [connCheck, hrun, List.all_eq_true] at hc
  intro a b ha hb
  have hca := hc a (List.mem_range.mpr ha)
  have hcb := hc b (List.mem_range.mpr hb)
  rw [decide_eq_true_eq] at hca hcb
  exact (hroots a b ha hb).mp (hca.trans hcb.symm)

/-- Boolean forest check: every edge of `E` is accepted by the union-find
pass. -/
def forestCheck (v : Nat) (E : List Edge) : Bool :=
  match ufRun v E with
  | some (_, _, acc) => acc.length = E.length
  | none => false

theorem forest_of_forestCheck (v : Nat) {E : List Edge}
    (hok : ∀ e ∈ E, e.1 < v ∧ e.2.1 < v) (hc : forestCheck v E = true) :
    IsForest E := by
  obtain ⟨p, r, acc, hrun, hcore, hsubl, _, _⟩ := ufRun_sound hok
  simp only [forestCheck, hrun, decide_eq_true_eq] at hc
  have : acc = E := hsubl.eq_of_length hc
  exact this ▸ hcore.mforest

/-! ## Preservation of the forest invariant by arbitrary in-range unions -/

theorem set_root_self {parent : List Nat} {r : Nat} (h : isRoot parent r) :
    parent.set r r = parent := by
  apply List.ext_getElem?
  intro i
  rw [List.getElem?_set]
  by_cases hri : r = i
  · subst hri
    by_cases hrl : r < parent.length
    · rw [if_pos rfl, if_pos hrl, List.getElem?_eq_getElem hrl]
      have h' : pget parent r = r := h
      rw [pget, List.getD_eq_getElem?_getD, List.getElem?_eq_getElem hrl] at h'
      exact congrArg some h'.symm
    · rw [if_pos rfl, if_neg hrl]
      exact (List.getElem?_eq_none (Nat.le_of_not_lt hrl)).symm
  · rw [if_neg hri]

/-- Any successful `union` call with in-range arguments preserves the forest
invariant of the parent array, whatever the rank array contains. -/
theorem ForestInv.union_preserve {v : Nat} {parent rank : List Nat} {x y : Nat}
    {p' r' : List Nat} (h : ForestInv v parent) (hx : x < v) (hy : y < v)
    (hun : union parent rank x y = some (p', r')) : ForestInv v p' := by
  simp only [union, find_eq_rootD h hx, find_eq_rootD h hy] at hun
  have hxroot : isRoot parent (rootD parent x) := rootD_isRoot h hx
  have hyroot : isRoot parent (rootD parent y) := rootD_isRoot h hy
  have hxlt : rootD parent x < v := rootD_lt h hx
  have hylt : rootD parent y < v := rootD_lt h hy
  cases hgx : rank.get? (rootD parent x) with
  | none => simp only [hgx] at hun; exact absurd hun (by simp)
  | some rx =>
    cases hgy : rank.get? (rootD parent y) with
    | none => simp only [hgx, hgy] at hun; exact absurd hun (by simp)
    | some ry =>
      simp only [hgx, hgy] at hun
      by_cases hXY : rootD parent x = rootD parent y
      · have hrxy : rx = ry := by
          rw [hXY] at hgx
          rw [hgx] at hgy
          exact Option.some.inj hgy
        split_ifs at hun with h1 h2
        · omega
        · omega
        · have hp' : p' = parent.set (rootD parent y) (rootD parent x) :=
            (Prod.mk.injEq _ _ _ _ ▸ Option.some.inj hun).1.symm
          rw [hp', ← hXY, set_root_self hxroot]
          exact h
      · split_ifs at hun with h1 h2
        · have hp' : p' = parent.set (rootD parent x) (rootD parent y) :=
            (Prod.mk.injEq _ _ _ _ ▸ Option.some.inj hun).1.symm
          rw [hp']
          exact h.link hylt hxlt hyroot hxroot (fun hc => hXY hc.symm)
        · have hp' : p' = parent.set (rootD parent y) (rootD parent x) :=
            (Prod.mk.injEq _ _ _ _ ▸ Option.some.inj hun).1.symm
          rw [hp']
          exact h.link hxlt hylt hxroot hyroot hXY
        · have hp' : p' = parent.set (rootD parent y) (rootD parent x) :=
            (Prod.mk.injEq _ _ _ _ ▸ Option.some.inj hun).1.symm
          rw [hp']
          exact h.link hxlt hylt hxroot hyroot hXY

instance (v : Nat) (parent : List Nat) : Decidable (ForestInv v parent) := by
  unfold ForestInv
  infer_instance

/-! ## Optimality of the greedy choice -/

theorem sum_le_sum_of_get_le : ∀ {l₁ l₂ : List Int}, l₁.length = l₂.length →
    (∀ k (h₁ : k < l₁.length) (h₂ : k < l₂.length),
      l₁.get ⟨k, h₁⟩ ≤ l₂.get ⟨k, h₂⟩) →
    l₁.sum ≤ l₂.sum := by
  intro l₁
  induction l₁ with
  | nil =>
    intro l₂ hlen _
    rw [List.length_eq_zero.mp hlen.symm]
  | cons a l₁ ih =>
    intro l₂ hlen hget
    cases l₂ with
    | nil => exact absurd hlen (by simp)
    | cons b l₂ =>
      rw [List.sum_cons, List.sum_cons]
      have hhead : a ≤ b := hget 0 (Nat.succ_pos _) (Nat.succ_pos _)
      have htail : l₁.sum ≤ l₂.sum := by
        refine ih (by simpa using hlen) ?_
        intro k h₁ h₂
        exact hget (k + 1) (Nat.succ_lt_succ h₁) (Nat.succ_lt_succ h₂)
      exact add_le_add hhead htail

/-- In a sorted list, if the entry at index `k` is below `W` then at least
`k + 1` entries are below `W`. -/
theorem countP_lt_of_sorted {s : List Int} (hsort : List.Sorted (· ≤ ·) s)
    {k : Nat} (hk : k < s.length) {W : Int} (hW : s.get ⟨k, hk⟩ < W) :
    k + 1 ≤ List.countP (fun x => decide (x < W)) s := by
  have hsub : (s.take (k + 1)).Sublist s := List.take_sublist _ _
  have hlen : (s.take (k + 1)).length = k + 1 := by
    rw [List.length_take]
    omega
  have hall : ∀ a ∈ s.take (k + 1), (fun x => decide (x < W)) a = true := by
    intro a ha
    rw [List.mem_take_iff_getElem] at ha
    obtain ⟨i, hm, ha⟩ := ha
    have hik : i ≤ k := by omega
    have his : i < s.length := by omega
    have hle : s.get ⟨i, his⟩ ≤ s.get ⟨k, hk⟩ :=
      hsort.rel_get_of_le (Fin.mk_le_mk.mpr hik)
    rw [decide_eq_true_eq]
    calc a = s.get ⟨i, his⟩ := by rw [← ha]; rfl
    _ ≤ s.get ⟨k, hk⟩ := hle
    _ < W := hW
  calc k + 1 = (s.take (k + 1)).length := hlen.symm
  _ = List.countP (fun x => decide (x < W)) (s.take (k + 1)) :=
    (List.countP_eq_length.mpr hall).symm
  _ ≤ List.countP (fun x => decide (x < W)) s := hsub.countP_le _

/-- The exchange-free optimality argument: any spanning forest `T'` drawn
from the same edge list weighs at least as much as the output of the greedy
loop.  For each index `k`, if the `k`-th smallest weight of `T'` were below
the `k`-th accepted weight `W`, then `T'` would contain `k + 1` edges lighter
than `W`; all of them lie inside the components of the first `k` accepted
edges, yet they form a forest, which is impossible by component counting. -/
theorem kruskal_le_spanning {g : Graph} {out T' : List Edge}
    (hok : EdgesOk g) (hv : 0 < g.v)
    (houtlen : out.length = g.v - 1) (houtfor : IsForest out)
    (houtsub : ∀ e ∈ out, e ∈ g.graph)
    (houtP : ∀ k, ∀ hk : k < out.length,
      ∀ f ∈ g.graph, wt f < wt (out.get ⟨k, hk⟩) → Reach (out.take k) f.1 f.2.1)
    (hT'mem : ∀ f ∈ T', f ∈ g.graph) (hT'forest : IsForest T')
    (hT'span : ∀ a b, a < g.v → b < g.v → Reach T' a b) :
    (out.map wt).sum ≤ (T'.map wt).sum := by
  have hT'ok : ∀ f ∈ T', f.1 < g.v ∧ f.2.1 < g.v :=
    fun f hf => hok f (hT'mem f hf)
  have hT'comp1 : ncomp g.v T' = 1 := ncomp_spans hT'ok hv hT'span
  have hT'compF : ncomp g.v T' = g.v - T'.length := ncomp_forest hT'ok hT'forest
  have hT'lenle : T'.length ≤ g.v := by omega
  have hT'len : T'.length = g.v - 1 := by omega
  set s := List.insertionSort (fun a b : Int => a ≤ b) (T'.map wt) with hsdef
  have hs_perm : s.Perm (T'.map wt) := List.perm_insertionSort _ _
  have hs_sorted : List.Sorted (fun a b : Int => a ≤ b) s :=
    List.sorted_insertionSort _ _
  have hs_len : s.length = g.v - 1 := by
    rw [hsdef, List.length_insertionSort, List.length_map, hT'len]
  have how_len : (out.map wt).length = g.v - 1 := by
    rw [List.length_map, houtlen]
  have hpoint : ∀ k (h₁ : k < (out.map wt).length) (h₂ : k < s.length),
      (out.map wt).get ⟨k, h₁⟩ ≤ s.get ⟨k, h₂⟩ := by
    intro k h₁ h₂
    by_contra hlt
    push_neg at hlt
    have hk_out : k < out.length := by rwa [List.length_map] at h₁
    have hW : (out.map wt).get ⟨k, h₁⟩ = wt (out.get ⟨k, hk_out⟩) := by
      rw [List.get_eq_getElem, List.get_eq_getElem, List.getElem_map]
    rw [hW] at hlt
    set W := wt (out.get ⟨k, hk_out⟩) with hWdef
    have hcount : k + 1 ≤ List.countP (fun x => decide (x < W)) s :=
      countP_lt_of_sorted hs_sorted h₂ hlt
    have hcount' : k + 1 ≤ List.countP (fun x => decide (x < W)) (T'.map wt) := by
      rw [← List.Perm.countP_eq _ hs_perm]
      exact hcount
    set B := T'.filter (fun f => decide (wt f < W)) with hBdef
    have hBlen : k + 1 ≤ B.length := by
      have h1 : B.length = List.countP (fun f : Edge => decide (wt f < W)) T' := by
        rw [hBdef, List.countP_eq_length_filter]
      have h2 : List.countP (fun f : Edge => decide (wt f < W)) T' =
          List.countP (fun x : Int => decide (x < W)) (T'.map wt) := by
        rw [List.countP_map]
        rfl
      omega
    have hBsub : B.Sublist T' := List.filter_sublist T'
    have hBfor : IsForest B := IsForest.sublist hBsub hT'forest
    have hBok : ∀ e ∈ B, e.1 < g.v ∧ e.2.1 < g.v :=
      fun e he => hT'ok e (List.Sublist.mem he hBsub)
    have hAfor : IsForest (out.take k) := by
      have h := houtfor
      rw [← List.take_append_drop k out] at h
      exact h.of_append_left
    have hAok : ∀ e ∈ out.take k, e.1 < g.v ∧ e.2.1 < g.v :=
      fun e he => hok e (houtsub e (List.take_subset k out he))
    have hAlen : (out.take k).length = k := by
      rw [List.length_take]
      omega
    have hBcov : ∀ e ∈ B, Reach (out.take k) e.1 e.2.1 := by
      intro e he
      have heT' : e ∈ T' := List.Sublist.mem he hBsub
      have hewt : wt e < W := by
        have hmem := List.of_mem_filter he
        rwa [decide_eq_true_eq] at hmem
      exact houtP k hk_out e (hT'mem e heT') hewt
    have hmono : ncomp g.v (out.take k) ≤ ncomp g.v B :=
      ncomp_mono hBok hAok (fun a b _ _ h => Reach.cover hBcov h)
    have hncompA : ncomp g.v (out.take k) = g.v - k := by
      rw [ncomp_forest hAok hAfor, hAlen]
    have hncompB : ncomp g.v B = g.v - B.length := ncomp_forest hBok hBfor
    have hkv : k < g.v - 1 := by
      rw [← houtlen]
      exact hk_out
    omega
  have hsum : (out.map wt).sum ≤ s.sum :=
    sum_le_sum_of_get_le (by rw [how_len, hs_len]) hpoint
  calc (out.map wt).sum ≤ s.sum := hsum
  _ = (T'.map wt).sum := hs_perm.sum_eq

/-- The example graph built in the `__main__` block. -/
def exampleGraph : Graph :=
  ⟨4, [(0, 1, 10), (0, 2, 6), (0, 3, 5), (1, 3, 15), (2, 3, 4)]⟩

/-! ## The claims -/

/-- C1: on the concrete input `V = 4` with edges `(0,1,10), (0,2,6), (0,3,5),
(1,3,15), (2,3,4)`, the MST computation selects exactly the edges
`(2,3,4), (0,3,5), (0,1,10)` in that order and reports total weight `19`. -/
theorem kruskal_example_result :
    kruskalMST exampleGraph = some ([(2, 3, 4), (0, 3, 5), (0, 1, 10)], 19) := by
  decide

/-- C2: for every connected input graph with `V` vertices, at least `V - 1`
edges, and all endpoints in `[0, V)`, the MST computation succeeds and returns
exactly `V - 1` edges whose edge set connects all `V` vertices and contains no
cycle. -/
theorem kruskal_spanning_tree (g : Graph) (hok : EdgesOk g)
    (hE : g.v - 1 ≤ g.graph.length) (hconn : ConnectedG g) :
    ∃ mst c, kruskalMST g = some (mst, c) ∧ mst.length = g.v - 1 ∧
      (∀ a b, a < g.v → b < g.v → Reach mst a b) ∧ IsForest mst := by
  obtain ⟨out, hout, hlen, hfor, _, hspan, _⟩ := kruskalMST_sound hok hconn
  exact ⟨out, _, hout, hlen, hspan, hfor⟩

theorem kruskal_spanning_tree_witness :
    ∃ mst c, kruskalMST exampleGraph = some (mst, c) ∧
      mst.length = exampleGraph.v - 1 ∧
      (∀ a b, a < exampleGraph.v → b < exampleGraph.v → Reach mst a b) ∧
      IsForest mst :=
  kruskal_spanning_tree exampleGraph (by decide) (by decide)
    (conn_of_connCheck (by decide) (by decide))

/-- C3: for every connected well-formed input graph, the total weight reported
by the MST computation is at most the total weight of every spanning tree
(cycle-free, all-vertex-connecting edge list) drawn from the same edge set. -/
theorem kruskal_optimal (g : Graph) (mst : List Edge) (c : Int) (T' : List Edge)
    (hok : EdgesOk g) (hconn : ConnectedG g)
    (hres : kruskalMST g = some (mst, c))
    (hT'mem : ∀ f ∈ T', f ∈ g.graph) (hT'forest : IsForest T')
    (hT'span : ∀ a b, a < g.v → b < g.v → Reach T' a b) :
    c ≤ (T'.map wt).sum := by
  obtain ⟨out, hout, houtlen, houtfor, houtsub, _, houtP⟩ :=
    kruskalMST_sound hok hconn
  have hpair : (out, (out.map wt).sum) = (mst, c) :=
    Option.some.inj (hout.symm.trans hres)
  rw [Prod.mk.injEq] at hpair
  obtain ⟨hm, hc⟩ := hpair
  by_cases hv : 0 < g.v
  · rw [← hc]
    exact kruskal_le_spanning hok hv houtlen houtfor houtsub houtP
      hT'mem hT'forest hT'span
  · have hTnil : T' = [] := by
      rw [List.eq_nil_iff_forall_not_mem]
      intro f hf
      have := hok f (hT'mem f hf)
      omega
    have houtnil : out = [] := by
      refine List.length_eq_zero.mp ?_
      omega
    rw [← hc, houtnil, hTnil]

theorem kruskal_optimal_witness :
    (19 : Int) ≤ ((([(0, 1, 10), (0, 2, 6), (0, 3, 5)] : List Edge)).map wt).sum :=
  kruskal_optimal exampleGraph [(2, 3, 4), (0, 3, 5), (0, 1, 10)] 19
    [(0, 1, 10), (0, 2, 6), (0, 3, 5)]
    (by decide) (conn_of_connCheck (by decide) (by decide)) (by decide)
    (by decide) (forest_of_forestCheck 4 (by decide) (by decide))
    (conn_of_connCheck (by decide) (by decide))

/-- C4: on a disconnected graph (edges exhausted with fewer than `V - 1`
accepted) the code does not return an explicit disconnected-graph outcome:
the loop reads `self.graph[i]` past the end of the list and crashes with an
`IndexError`, modelled as `none`.  Concretely, `V = 4` with edges only inside
`{0,1}` and `{2,3}`. -/
theorem kruskal_disconnected_crash :
    kruskalMST ⟨4, [(0, 1, 1), (2, 3, 1)]⟩ = none := by decide

/-- C5: `find` returns the root of `i`'s set but performs no write to
`parent` (its body only reads `parent[i]` and recurses), so no visited node is
re-pointed: with `parent = [1, 2, 2]`, vertex `0` is still 2 parent-steps from
the root `2` after the call — the claimed path compression does not happen. -/
theorem find_no_path_compression :
    find [1, 2, 2] 0 = some 2 ∧
    findParentAfter [1, 2, 2] 0 = [1, 2, 2] ∧
    stepsToRoot [1, 2, 2] 4 0 = some 2 ∧
    stepsToRoot (findParentAfter [1, 2, 2] 0) 4 0 = some 2 := by
  decide

/-- C6: `union` on two distinct in-range roots follows union-by-rank exactly:
lower-rank root is linked under the higher-rank one with ranks unchanged, and
on a tie `y` is linked under `x` and `rank[x]` is incremented. -/
theorem union_rank_cases (parent rank : List Nat) (x y : Nat)
    (hx : x < parent.length) (hy : y < parent.length)
    (hxr : x < rank.length) (hyr : y < rank.length)
    (hrx : pget parent x = x) (hry : pget parent y = y) (hne : x ≠ y) :
    (rank.getD x 0 < rank.getD y 0 →
      union parent rank x y = some (parent.set x y, rank) ∧
        pget (parent.set x y) x = y) ∧
    (rank.getD y 0 < rank.getD x 0 →
      union parent rank x y = some (parent.set y x, rank) ∧
        pget (parent.set y x) y = x) ∧
    (rank.getD x 0 = rank.getD y 0 →
      union parent rank x y = some (parent.set y x, rank.set x (rank.getD x 0 + 1)) ∧
        pget (parent.set y x) y = x ∧
        (rank.set x (rank.getD x 0 + 1)).getD x 0 = rank.getD x 0 + 1) := by
  have hun := union_eq hx hy hrx hry hxr hyr
  refine ⟨?_, ?_, ?_⟩
  · intro h
    rw [hun, if_pos h]
    refine ⟨rfl, ?_⟩
    rw [pget_set hx, if_pos rfl]
  · intro h
    rw [hun, if_neg (by omega), if_pos h]
    refine ⟨rfl, ?_⟩
    rw [pget_set hy, if_pos rfl]
  · intro h
    rw [hun, if_neg (by omega), if_neg (by omega)]
    refine ⟨rfl, ?_, ?_⟩
    · rw [pget_set hy, if_pos rfl]
    · rw [List.getD_eq_getElem?_getD, List.getElem?_set_self hxr]
      rfl

theorem union_rank_cases_witness :
    union [0, 1] [0, 0] 0 1 = some ([0, 0], [1, 0]) :=
  (((union_rank_cases [0, 1] [0, 0] 0 1 (by decide) (by decide) (by decide)
    (by decide) (by decide) (by decide) (by decide)).2.2 (by decide)).1 :
    union [0, 1] [0, 0] 0 1 = some (([0, 1] : List Nat).set 1 0,
      ([0, 0] : List Nat).set 0 (([0, 0] : List Nat).getD 0 0 + 1)))

/-- C7: an edge endpoint outside `[0, V)` is not rejected before sorting:
there is no input validation at all, and the unvalidated index reaches
`parent[i]` inside `find`, which crashes with an `IndexError` (modelled as
`none`).  Concretely, `V = 2` with edge `(0, 5, 1)`. -/
theorem kruskal_invalid_vertex_crash :
    kruskalMST ⟨2, [(0, 5, 1)]⟩ = none := by decide

/-- C8: with `V = 0` or `V = 1` the loop guard `e < V - 1` is false at once
(Python compares `0 < -1`, the model `0 < 0`), so for any edge list the
computation succeeds with an empty edge list and total weight `0`. -/
theorem kruskal_trivial_graph (E : List Edge) :
    kruskalMST ⟨0, E⟩ = some ([], 0) ∧ kruskalMST ⟨1, E⟩ = some ([], 0) := by
  constructor <;> · rw [kruskalMST, kruskalLoop.eq_def]; rfl

/-- C9 (counterexample): `kruskalMST` reassigns `self.graph` to the
weight-sorted copy, so the caller's edge order is changed: on the example
graph the list after the call differs from the list before it. -/
theorem kruskal_mutates_graph_counterexample :
    (kruskalGraphAfter exampleGraph).graph ≠ exampleGraph.graph := by decide

/-- C9 (amended): `kruskalMST` leaves the vertex count unchanged and keeps
the same edges as a multiset, but reorders the graph's edge list into
weight-ascending order (the sorted copy is assigned back to `self.graph`). -/
theorem kruskal_graph_after_spec (g : Graph) :
    (kruskalGraphAfter g).v = g.v ∧
    (kruskalGraphAfter g).graph.Perm g.graph ∧
    List.Sorted (fun a b : Edge => wt a ≤ wt b) (kruskalGraphAfter g).graph :=
  ⟨rfl, List.perm_insertionSort _ _, List.sorted_insertionSort _ _⟩

/-- C10: the parent array invariant — length `V`, entries in `[0, V)`, and
every parent chain reaching a fixed point (a root) — is established by the
initialisation `parent[j] = j`, is untouched by `find` (which, in this code,
never writes to `parent` and returns the root of its argument's chain, so the
recursion terminates on every in-range vertex), and is preserved by every
successful `union` call with in-range arguments. -/
theorem parent_forest_invariant (v : Nat) :
    ForestInv v (List.range v) ∧
    (∀ parent : List Nat, ∀ i : Nat, ForestInv v parent → i < v →
      ∃ r, find parent i = some r ∧ r < v ∧ isRoot parent r ∧
        findParentAfter parent i = parent) ∧
    (∀ parent rank p' r' : List Nat, ∀ x y : Nat,
      ForestInv v parent → x < v → y < v →
      union parent rank x y = some (p', r') → ForestInv v p') := by
  refine ⟨(coreInv_init v).forest, ?_, ?_⟩
  · intro parent i hinv hi
    exact ⟨rootD parent i, find_eq_rootD hinv hi, rootD_lt hinv hi,
      rootD_isRoot hinv hi, rfl⟩
  · intro parent rank p' r' x y hinv hx hy hun
    exact hinv.union_preserve hx hy hun

theorem parent_forest_invariant_witness :
    ∃ r, find [0, 0, 1] 2 = some r ∧ r < 3 ∧ isRoot [0, 0, 1] r ∧
      findParentAfter [0, 0, 1] 2 = [0, 0, 1] :=
  (parent_forest_invariant 3).2.1 [0, 0, 1] 2 (by decide) (by decide)
